import Mathlib

/-!
Shallow embedding of parts of the geomstats repository:
  * geometry/klein_bottle.py (`KleinBottle`, `KleinBottleMetric`),
  * geometry/positive_lower_triangular_matrices.py (`CholeskyMetric`,
    `UnitNormedRowsPLTDiffeo`),
  * geometry/symmetric_matrices.py (`SymmetricMatrices`).

The Klein-bottle code only uses field operations, `floor`, `mod`, `abs`
and comparisons, so it is embedded over `ℚ` (exact arithmetic, fully
executable).  The Cholesky metric uses `exp`/`log` and is embedded over
real matrices.  Batched (leading-dimension) behaviour of the numpy code
is elementwise, so points are modelled one at a time.
-/

namespace Geomstats

/-- A point of the ambient plane `R^2` of the Klein bottle (`shape=(2,)`). -/
abbrev Point := ℚ × ℚ

/-- `gs.mod(x, m)`: numpy-style modulus, `x - m * floor (x / m)`. -/
def qmod (x m : ℚ) : ℚ := x - m * ⌊x / m⌋

/-- `gs.isclose(a, b, atol)`: absolute-tolerance closeness. -/
def isclose (a b atol : ℚ) : Bool := decide (|a - b| ≤ atol)

/-- `_is_close_mod` (klein_bottle.py): true iff `|array|` is close to `0`
or to `divisor`. -/
def is_close_mod (array divisor atol : ℚ) : Bool :=
  isclose |array| 0 atol || isclose |array| divisor atol

namespace KleinBottle

/-- `KleinBottle.belongs`: both coordinates lie in `[0, 1]`. -/
def belongs (point : Point) : Bool :=
  decide (0 ≤ point.1 ∧ point.1 ≤ 1) && decide (0 ≤ point.2 ∧ point.2 ≤ 1)

/-- `KleinBottle.equivalent`: the two-leg test of klein_bottle.py, with the
un-mirrored leg (`x`-difference even, `y`-difference integer) and the
mirrored leg (`x`-difference odd, `y`-sum integer), each leg tested by
`_is_close_mod` after a `gs.mod`. -/
def equivalent (point_a point_b : Point) (atol : ℚ) : Bool :=
  let x_diff := point_a.1 - point_b.1
  let y_diff := point_a.2 - point_b.2
  let y_sum := point_a.2 + point_b.2
  (is_close_mod (qmod x_diff 2) 2 atol && is_close_mod (qmod y_diff 1) 1 atol) ||
    (is_close_mod (qmod (x_diff - 1) 2) 2 atol && is_close_mod (qmod y_sum 1) 1 atol)

/-- `KleinBottle.regularize`: canonical representative in the unit square.
`num_steps = cast(abs(floor(x)), int)`, `x_canonical = x mod 1`,
`y_canonical_even = y mod 1`, `y_canonical_odd = (1 - y_canonical_even) mod 1`;
the even branch is selected when `num_steps % 2 == 0`. -/
def regularize (point : Point) : Point :=
  if (⌊point.1⌋).natAbs % 2 = 0 then (qmod point.1 1, qmod point.2 1)
  else (qmod point.1 1, qmod (1 - qmod point.2 1) 1)

end KleinBottle

/-- Squared Euclidean distance `sum((a - b) ** 2)` on `R^2`. -/
def sqdist (a b : Point) : ℚ := (a.1 - b.1) ^ 2 + (a.2 - b.2) ^ 2

namespace KleinBottleMetric

/-- The nine candidate representatives `p2, p2_2, ..., p2_9` stacked in
`_closest_representative`, in source order. -/
def candidates (p2 : Point) : List Point :=
  [p2,
   (p2.1, p2.2 - 1),
   (p2.1, p2.2 + 1),
   (p2.1 + 1, 1 - p2.2),
   (p2.1 + 1, 2 - p2.2),
   (p2.1 + 1, 0 - p2.2),
   (p2.1 - 1, 1 - p2.2),
   (p2.1 - 1, 2 - p2.2),
   (p2.1 - 1, 0 - p2.2)]

/-- First-minimum selection: `gs.argmin` returns the first index attaining
the minimum, so a candidate replaces the current best only when strictly
closer to `p1`. -/
def selectMin (p1 : Point) (l : List Point) (best : Point) : Point :=
  l.foldl (fun acc c => if sqdist c p1 < sqdist acc p1 then c else acc) best

/-- `KleinBottleMetric._closest_representative`: regularize both points and
pick, among the nine candidate representatives of `point2`, the first one
minimizing the squared distance to the regularized `point1`. -/
def closest_representative (point1 point2 : Point) : Point × Point :=
  let p1 := KleinBottle.regularize point1
  let p2 := KleinBottle.regularize point2
  (p1, selectMin p1 (candidates p2) p2)

/-- `KleinBottleMetric.log`: difference between the closest representative
of `point` and the canonical representative of `base_point`. -/
def log (point base_point : Point) : Point :=
  let r := closest_representative base_point point
  (r.2.1 - r.1.1, r.2.2 - r.1.2)

/-- `KleinBottleMetric.exp`: add the tangent vector to the regularized base
point and regularize the sum. -/
def exp (tangent_vec base_point : Point) : Point :=
  let base_point_canonical := KleinBottle.regularize base_point
  KleinBottle.regularize
    (base_point_canonical.1 + tangent_vec.1, base_point_canonical.2 + tangent_vec.2)

end KleinBottleMetric

/-! ### Basic facts about `qmod` -/

theorem qmod_nonneg (x : ℚ) {m : ℚ} (hm : 0 < m) : 0 ≤ qmod x m := by
  have h := Int.floor_le (x / m)
  have : m * ⌊x / m⌋ ≤ m * (x / m) := by
    exact mul_le_mul_of_nonneg_left h (le_of_lt hm)
  rw [mul_div_cancel₀ x (ne_of_gt hm)] at this
  simpa [qmod] using this

theorem qmod_lt (x : ℚ) {m : ℚ} (hm : 0 < m) : qmod x m < m := by
  have h := Int.lt_floor_add_one (x / m)
  have : m * (x / m) < m * (⌊x / m⌋ + 1) := by
    exact mul_lt_mul_of_pos_left h hm
  rw [mul_div_cancel₀ x (ne_of_gt hm)] at this
  simp only [qmod]
  nlinarith

theorem qmod_one (x : ℚ) : qmod x 1 = Int.fract x := by
  unfold qmod Int.fract
  rw [div_one, one_mul]

theorem qmod_eq_zero_iff (x : ℚ) {m : ℚ} (hm : 0 < m) :
    qmod x m = 0 ↔ ∃ k : ℤ, x = m * k := by
  constructor
  · intro h
    refine ⟨⌊x / m⌋, ?_⟩
    have : x - m * ⌊x / m⌋ = 0 := h
    linarith
  · rintro ⟨k, rfl⟩
    have hx : m * (k : ℚ) / m = (k : ℚ) := by
      field_simp
    simp [qmod, hx]

/-- The exact (zero-tolerance) Klein-bottle equivalence relation, as stated
in the `KleinBottle` class docstring. -/
def Requiv (a b : Point) : Prop :=
  (∃ k m : ℤ, a.1 - b.1 = 2 * k ∧ a.2 - b.2 = m) ∨
    (∃ k m : ℤ, a.1 - b.1 = 2 * k + 1 ∧ a.2 + b.2 = m)

theorem is_close_mod_qmod_zero (x : ℚ) {m : ℚ} (hm : 0 < m) :
    is_close_mod (qmod x m) m 0 = true ↔ ∃ k : ℤ, x = m * k := by
  have h0 := qmod_nonneg x hm
  have h1 := qmod_lt x hm
  rw [← qmod_eq_zero_iff x hm]
  simp only [is_close_mod, isclose, Bool.or_eq_true, decide_eq_true_eq, sub_zero]
  rw [abs_of_nonneg h0, abs_of_nonneg h0]
  constructor
  · rintro (h | h)
    · linarith
    · have h2 := (abs_le.mp h).1
      linarith
  · intro h
    exact Or.inl (le_of_eq h)

theorem equivalent_iff_Requiv (a b : Point) :
    KleinBottle.equivalent a b 0 = true ↔ Requiv a b := by
  have two_pos : (0 : ℚ) < 2 := by norm_num
  have one_pos : (0 : ℚ) < 1 := by norm_num
  simp only [KleinBottle.equivalent, Bool.or_eq_true, Bool.and_eq_true, Requiv]
  rw [is_close_mod_qmod_zero _ two_pos, is_close_mod_qmod_zero _ one_pos,
    is_close_mod_qmod_zero _ two_pos, is_close_mod_qmod_zero _ one_pos]
  constructor
  · rintro (⟨⟨k, hk⟩, ⟨m, hm⟩⟩ | ⟨⟨k, hk⟩, ⟨m, hm⟩⟩)
    · exact Or.inl ⟨k, m, by linarith, by simpa using hm⟩
    · exact Or.inr ⟨k, m, by linarith, by simpa using hm⟩
  · rintro (⟨k, m, hk, hm⟩ | ⟨k, m, hk, hm⟩)
    · exact Or.inl ⟨⟨k, by linarith⟩, ⟨m, by simpa using hm⟩⟩
    · exact Or.inr ⟨⟨k, by linarith⟩, ⟨m, by simpa using hm⟩⟩

theorem Requiv.refl (a : Point) : Requiv a a :=
  Or.inl ⟨0, 0, by norm_num, by norm_num⟩

theorem Requiv.symm {a b : Point} (h : Requiv a b) : Requiv b a := by
  rcases h with ⟨k, m, hk, hm⟩ | ⟨k, m, hk, hm⟩
  · exact Or.inl ⟨-k, -m, by push_cast; linarith, by push_cast; linarith⟩
  · exact Or.inr ⟨-k - 1, m, by push_cast; linarith, by linarith⟩

theorem Requiv.trans {a b c : Point} (hab : Requiv a b) (hbc : Requiv b c) :
    Requiv a c := by
  rcases hab with ⟨k₁, m₁, hk₁, hm₁⟩ | ⟨k₁, m₁, hk₁, hm₁⟩ <;>
    rcases hbc with ⟨k₂, m₂, hk₂, hm₂⟩ | ⟨k₂, m₂, hk₂, hm₂⟩
  · exact Or.inl ⟨k₁ + k₂, m₁ + m₂, by push_cast; linarith, by push_cast; linarith⟩
  · exact Or.inr ⟨k₁ + k₂, m₁ + m₂, by push_cast; linarith, by push_cast; linarith⟩
  · exact Or.inr ⟨k₁ + k₂, m₁ - m₂, by push_cast; linarith, by push_cast; linarith⟩
  · exact Or.inl ⟨k₁ + k₂ + 1, m₁ - m₂, by push_cast; linarith, by push_cast; linarith⟩

/-! ### Facts about `regularize` -/

theorem regularize_mem (p : Point) :
    0 ≤ (KleinBottle.regularize p).1 ∧ (KleinBottle.regularize p).1 < 1 ∧
      0 ≤ (KleinBottle.regularize p).2 ∧ (KleinBottle.regularize p).2 < 1 := by
  have h1 : (0 : ℚ) < 1 := by norm_num
  unfold KleinBottle.regularize
  split <;>
    exact ⟨qmod_nonneg _ h1, qmod_lt _ h1, qmod_nonneg _ h1, qmod_lt _ h1⟩

theorem regularize_equiv (p : Point) : Requiv (KleinBottle.regularize p) p := by
  unfold KleinBottle.regularize
  split
  case isTrue h =>
    obtain ⟨j, hj⟩ : ∃ j : ℤ, ⌊p.1⌋ = 2 * j := ⟨⌊p.1⌋ / 2, by omega⟩
    refine Or.inl ⟨-j, -⌊p.2⌋, ?_, ?_⟩
    · simp only [qmod_one, Int.fract]
      rw [hj]; push_cast; ring
    · simp only [qmod_one, Int.fract]
      push_cast; ring
  case isFalse h =>
    obtain ⟨j, hj⟩ : ∃ j : ℤ, ⌊p.1⌋ = 2 * j + 1 := ⟨(⌊p.1⌋ - 1) / 2, by omega⟩
    have hx : Int.fract p.1 - p.1 = 2 * ((-j - 1 : ℤ) : ℚ) + 1 := by
      simp only [Int.fract]
      rw [hj]; push_cast; ring
    by_cases hf : Int.fract p.2 = 0
    · refine Or.inr ⟨-j - 1, ⌊p.2⌋, ?_, ?_⟩
      · simpa only [qmod_one] using hx
      · have hy : p.2 = (⌊p.2⌋ : ℚ) := by
          simp only [Int.fract] at hf
          linarith
        simp only [qmod_one, hf, sub_zero, Int.fract_one, zero_add]
        exact hy
    · refine Or.inr ⟨-j - 1, ⌊p.2⌋ + 1, ?_, ?_⟩
      · simpa only [qmod_one] using hx
      · have h0 : 0 ≤ 1 - Int.fract p.2 := by
          linarith [Int.fract_lt_one p.2]
        have h1 : 1 - Int.fract p.2 < 1 := by
          have := Int.fract_nonneg p.2
          rcases lt_or_eq_of_le this with hlt | heq
          · linarith
          · exact absurd heq.symm hf
        simp only [qmod_one]
        rw [Int.fract_eq_self.mpr ⟨h0, h1⟩]
        simp only [Int.fract]
        push_cast; ring

theorem regularize_fixed (q : Point) (h0 : 0 ≤ q.1) (h1 : q.1 < 1)
    (h2 : 0 ≤ q.2) (h3 : q.2 < 1) : KleinBottle.regularize q = q := by
  have hfloor : ⌊q.1⌋ = 0 := Int.floor_eq_zero_iff.mpr ⟨h0, h1⟩
  unfold KleinBottle.regularize
  rw [hfloor]
  simp only [Int.natAbs_zero, Nat.zero_mod, if_true, if_pos, qmod_one]
  rw [Int.fract_eq_self.mpr ⟨h0, h1⟩, Int.fract_eq_self.mpr ⟨h2, h3⟩]

/-- `gs.atol`, the default absolute tolerance of the backend (`1e-12`). -/
def atolDefault : ℚ := 1 / 10 ^ 12

/-- C7: Regularize idempotence: for every point `p` in `R^2`,
`KleinBottle.regularize (KleinBottle.regularize p) = KleinBottle.regularize p`. -/
theorem klein_regularize_idempotent (p : Point) :
    KleinBottle.regularize (KleinBottle.regularize p) = KleinBottle.regularize p := by
  obtain ⟨h0, h1, h2, h3⟩ := regularize_mem p
  exact regularize_fixed _ h0 h1 h2 h3

/-- C8: Membership closure: for every point `p` in `R^2`,
`KleinBottle.belongs (KleinBottle.regularize p)` is true, i.e. both
coordinates of the regularized point lie in `[0, 1]`. -/
theorem klein_belongs_regularize (p : Point) :
    KleinBottle.belongs (KleinBottle.regularize p) = true := by
  obtain ⟨h0, h1, h2, h3⟩ := regularize_mem p
  simp only [KleinBottle.belongs, Bool.and_eq_true, decide_eq_true_eq]
  exact ⟨⟨h0, le_of_lt h1⟩, ⟨h2, le_of_lt h3⟩⟩

/-- C6: Equivalence consistency with regularization: in exact arithmetic,
`equivalent p q = equivalent (regularize p) (regularize q)`, and
`equivalent p p` is true for every nonnegative tolerance. -/
theorem klein_equivalent_consistency :
    (∀ p q : Point,
      KleinBottle.equivalent p q 0 =
        KleinBottle.equivalent (KleinBottle.regularize p) (KleinBottle.regularize q) 0) ∧
    (∀ (p : Point) (atol : ℚ), 0 ≤ atol → KleinBottle.equivalent p p atol = true) := by
  constructor
  · intro p q
    have h : KleinBottle.equivalent p q 0 = true ↔
        KleinBottle.equivalent (KleinBottle.regularize p) (KleinBottle.regularize q) 0
          = true := by
      rw [equivalent_iff_Requiv, equivalent_iff_Requiv]
      constructor
      · intro hpq
        exact ((regularize_equiv p).trans hpq).trans (regularize_equiv q).symm
      · intro hpq
        exact (regularize_equiv p).symm.trans (hpq.trans (regularize_equiv q))
    rcases hb : KleinBottle.equivalent p q 0 with _ | _ <;>
      rcases hb' : KleinBottle.equivalent (KleinBottle.regularize p)
        (KleinBottle.regularize q) 0 with _ | _
    · rfl
    · exact absurd (h.mpr hb') (by simp [hb])
    · exact absurd (h.mp hb) (by simp [hb'])
    · rfl
  · intro p atol h
    have hq2 : qmod 0 2 = 0 := by
      rw [qmod_eq_zero_iff 0 (by norm_num : (0:ℚ) < 2)]
      exact ⟨0, by norm_num⟩
    have hq1 : qmod 0 1 = 0 := by
      rw [qmod_eq_zero_iff 0 (by norm_num : (0:ℚ) < 1)]
      exact ⟨0, by norm_num⟩
    simp only [KleinBottle.equivalent, sub_self, hq2, hq1, is_close_mod, isclose,
      abs_zero, sub_zero, Bool.or_eq_true, Bool.and_eq_true, decide_eq_true_eq]
    exact Or.inl ⟨Or.inl h, Or.inl h⟩

/-- C6 witness: the consistency equation and reflexivity evaluated at
concrete points and a concrete positive tolerance. -/
theorem klein_equivalent_consistency_witness :
    (KleinBottle.equivalent (3/2, 1/3) (-1/2, 2/3) 0 =
      KleinBottle.equivalent (KleinBottle.regularize (3/2, 1/3))
        (KleinBottle.regularize (-1/2, 2/3)) 0) ∧
    KleinBottle.equivalent (3/2, 1/3) (3/2, 1/3) atolDefault = true :=
  ⟨klein_equivalent_consistency.1 (3/2, 1/3) (-1/2, 2/3),
   klein_equivalent_consistency.2 (3/2, 1/3) atolDefault (by norm_num [atolDefault])⟩

/-- C5: Klein bottle equivalence relation: in exact arithmetic `equivalent`
holds iff the `x`-difference is an even integer and the `y`-difference an
integer, or the `x`-difference is an odd integer and the `y`-sum an integer;
moreover, at the default tolerance, `equivalent ((0,0), (2,0))` is true and
`equivalent ((0,0), (1, 0.5))` is false. -/
theorem klein_equivalent_characterization :
    (∀ a b : Point, KleinBottle.equivalent a b 0 = true ↔ Requiv a b) ∧
    KleinBottle.equivalent (0, 0) (2, 0) atolDefault = true ∧
    KleinBottle.equivalent (0, 0) (1, 1/2) atolDefault = false :=
  ⟨equivalent_iff_Requiv,
   by norm_num [KleinBottle.equivalent, is_close_mod, isclose, qmod, atolDefault],
   by
     have h1 : |(1:ℚ)/2| = 1/2 := abs_of_nonneg (by norm_num)
     have h2 : |(1:ℚ)/2 - 1| = 1/2 := by
       rw [show (1:ℚ)/2 - 1 = -(1/2) by norm_num, abs_neg]
       exact h1
     norm_num [KleinBottle.equivalent, is_close_mod, isclose, qmod, atolDefault, h1, h2]⟩

/-! ### The argmin over the candidate list -/

theorem selectMin_mem (p1 : Point) (l : List Point) (best : Point) :
    KleinBottleMetric.selectMin p1 l best = best ∨
      KleinBottleMetric.selectMin p1 l best ∈ l := by
  induction l generalizing best with
  | nil => exact Or.inl rfl
  | cons c cs ih =>
    simp only [KleinBottleMetric.selectMin, List.foldl_cons] at *
    rcases ih (if sqdist c p1 < sqdist best p1 then c else best) with h | h
    · rw [h]
      split
      · exact Or.inr (List.mem_cons_self _ _)
      · exact Or.inl rfl
    · exact Or.inr (List.mem_cons_of_mem _ h)

theorem selectMin_le_best (p1 : Point) (l : List Point) (best : Point) :
    sqdist (KleinBottleMetric.selectMin p1 l best) p1 ≤ sqdist best p1 := by
  induction l generalizing best with
  | nil => exact le_refl _
  | cons c cs ih =>
    simp only [KleinBottleMetric.selectMin, List.foldl_cons] at *
    refine le_trans (ih _) ?_
    split
    · next h => exact le_of_lt h
    · exact le_refl _

theorem selectMin_le_mem (p1 : Point) (l : List Point) (best : Point) :
    ∀ c ∈ l, sqdist (KleinBottleMetric.selectMin p1 l best) p1 ≤ sqdist c p1 := by
  induction l generalizing best with
  | nil => intro c hc; exact absurd hc (List.not_mem_nil c)
  | cons c cs ih =>
    intro d hd
    simp only [KleinBottleMetric.selectMin, List.foldl_cons] at *
    rcases List.mem_cons.mp hd with rfl | hd'
    · refine le_trans (selectMin_le_best p1 cs _) ?_
      split
      · exact le_refl _
      · next h => exact le_of_not_lt h
    · exact ih _ d hd'

/-- Each of the nine candidate representatives is equivalent to `p2`. -/
theorem candidates_equiv (p2 : Point) :
    ∀ c ∈ KleinBottleMetric.candidates p2, Requiv c p2 := by
  intro c hc
  simp only [KleinBottleMetric.candidates, List.mem_cons, List.not_mem_nil,
    or_false] at hc
  rcases hc with rfl | rfl | rfl | rfl | rfl | rfl | rfl | rfl | rfl
  · exact Requiv.refl _
  · exact Or.inl ⟨0, -1, by push_cast; ring, by push_cast; ring⟩
  · exact Or.inl ⟨0, 1, by push_cast; ring, by push_cast; ring⟩
  · exact Or.inr ⟨0, 1, by push_cast; ring, by push_cast; ring⟩
  · exact Or.inr ⟨0, 2, by push_cast; ring, by push_cast; ring⟩
  · exact Or.inr ⟨0, 0, by push_cast; ring, by push_cast; ring⟩
  · exact Or.inr ⟨-1, 1, by push_cast; ring, by push_cast; ring⟩
  · exact Or.inr ⟨-1, 2, by push_cast; ring, by push_cast; ring⟩
  · exact Or.inr ⟨-1, 0, by push_cast; ring, by push_cast; ring⟩

/-- The representative selected by `_closest_representative` is a member of
the candidate list. -/
theorem closest_representative_mem (base point : Point) :
    (KleinBottleMetric.closest_representative base point).2 ∈
      KleinBottleMetric.candidates (KleinBottle.regularize point) := by
  simp only [KleinBottleMetric.closest_representative]
  rcases selectMin_mem (KleinBottle.regularize base)
      (KleinBottleMetric.candidates (KleinBottle.regularize point))
      (KleinBottle.regularize point) with h | h
  · rw [h]
    exact List.mem_cons_self _ _
  · exact h

/-- C1: Klein bottle exp/log round trip: for every `base_point` and `point`,
`exp (log point base_point) base_point` is a point equivalent to `point`
under the manifold's equivalence relation (exact arithmetic). -/
theorem klein_exp_log_roundtrip (point base_point : Point) :
    KleinBottle.equivalent
      (KleinBottleMetric.exp (KleinBottleMetric.log point base_point) base_point)
      point 0 = true := by
  rw [equivalent_iff_Requiv]
  have hmem := closest_representative_mem base_point point
  have hexp : KleinBottleMetric.exp (KleinBottleMetric.log point base_point)
      base_point = KleinBottle.regularize
        ((KleinBottleMetric.closest_representative base_point point).2) := by
    simp only [KleinBottleMetric.exp, KleinBottleMetric.log]
    congr 1
    rw [Prod.ext_iff]
    have hfst : (KleinBottleMetric.closest_representative base_point point).1 =
        KleinBottle.regularize base_point := rfl
    constructor <;> · rw [hfst] ; ring
  rw [hexp]
  have h1 := regularize_equiv (KleinBottleMetric.closest_representative base_point point).2
  have h2 : Requiv (KleinBottleMetric.closest_representative base_point point).2
      (KleinBottle.regularize point) :=
    candidates_equiv (KleinBottle.regularize point) _ hmem
  have h3 : Requiv (KleinBottle.regularize point) point := regularize_equiv point
  exact (h1.trans h2).trans h3

/-! ### Global optimality of the nine-candidate search -/

theorem nine_quarter_left (M dx s : ℚ)
    (h7 : M ≤ (dx - 1) ^ 2 + (1 - s) ^ 2)
    (h8 : M ≤ (dx - 1) ^ 2 + (2 - s) ^ 2)
    (h9 : M ≤ (dx - 1) ^ 2 + s ^ 2)
    (hs0 : 0 ≤ s) (hs2 : s < 2) :
    M ≤ (dx - 1) ^ 2 + 1 / 4 := by
  rcases le_or_lt s (1/2) with hs | hs
  · nlinarith [h9, mul_nonneg (by linarith : (0:ℚ) ≤ 1/2 - s) (by linarith : (0:ℚ) ≤ 1/2 + s)]
  · rcases le_or_lt s (3/2) with hs' | hs'
    · nlinarith [h7, mul_nonneg (by linarith : (0:ℚ) ≤ s - 1/2) (by linarith : (0:ℚ) ≤ 3/2 - s)]
    · nlinarith [h8, mul_nonneg (by linarith : (0:ℚ) ≤ s - 3/2) (by linarith : (0:ℚ) ≤ 5/2 - s)]

theorem nine_quarter_right (M dx s : ℚ)
    (h4 : M ≤ (dx + 1) ^ 2 + (1 - s) ^ 2)
    (h5 : M ≤ (dx + 1) ^ 2 + (2 - s) ^ 2)
    (h6 : M ≤ (dx + 1) ^ 2 + s ^ 2)
    (hs0 : 0 ≤ s) (hs2 : s < 2) :
    M ≤ (dx + 1) ^ 2 + 1 / 4 := by
  rcases le_or_lt s (1/2) with hs | hs
  · nlinarith [h6, mul_nonneg (by linarith : (0:ℚ) ≤ 1/2 - s) (by linarith : (0:ℚ) ≤ 1/2 + s)]
  · rcases le_or_lt s (3/2) with hs' | hs'
    · nlinarith [h4, mul_nonneg (by linarith : (0:ℚ) ≤ s - 1/2) (by linarith : (0:ℚ) ≤ 3/2 - s)]
    · nlinarith [h5, mul_nonneg (by linarith : (0:ℚ) ≤ s - 3/2) (by linarith : (0:ℚ) ≤ 5/2 - s)]

set_option maxHeartbeats 1600000 in
/-- If `M` is below the squared distances of all nine candidates, it is below
the squared distance of every member `(p2.x + 2k, p2.y + m)` of the
un-mirrored family.  Here `dx`, `dy` are the coordinate differences
`p2 - p1` and `s` is the `y`-sum `p2.y + p1.y`. -/
theorem nine_bound_even (M dx dy s : ℚ) (k m : ℤ)
    (h1 : M ≤ dx ^ 2 + dy ^ 2)
    (h2 : M ≤ dx ^ 2 + (dy - 1) ^ 2)
    (h3 : M ≤ dx ^ 2 + (dy + 1) ^ 2)
    (h4 : M ≤ (dx + 1) ^ 2 + (1 - s) ^ 2)
    (h5 : M ≤ (dx + 1) ^ 2 + (2 - s) ^ 2)
    (h6 : M ≤ (dx + 1) ^ 2 + s ^ 2)
    (h7 : M ≤ (dx - 1) ^ 2 + (1 - s) ^ 2)
    (h8 : M ≤ (dx - 1) ^ 2 + (2 - s) ^ 2)
    (h9 : M ≤ (dx - 1) ^ 2 + s ^ 2)
    (hdx1 : -1 < dx) (hdx2 : dx < 1) (hdy1 : -1 < dy) (hdy2 : dy < 1)
    (hs0 : 0 ≤ s) (hs2 : s < 2) :
    M ≤ (dx + 2 * k) ^ 2 + (dy + m) ^ 2 := by
  rcases lt_trichotomy k 0 with hk | hk | hk
  · -- k ≤ -1: the member lies at least two fundamental domains away in x
    have hkq : (k : ℚ) ≤ -1 := by exact_mod_cast Int.le_sub_one_of_lt hk
    have hX : (dx - 2) ^ 2 ≤ (dx + 2 * (k:ℚ)) ^ 2 := by
      nlinarith [mul_nonneg (by linarith : (0:ℚ) ≤ -(2*(k:ℚ) + 2))
        (by linarith : (0:ℚ) ≤ -(2*dx + 2*(k:ℚ) - 2))]
    rcases le_or_lt 0 dx with hdx0 | hdx0
    · have hq := nine_quarter_left M dx s h7 h8 h9 hs0 hs2
      nlinarith [sq_nonneg (dy + (m:ℚ))]
    · have hq := nine_quarter_right M dx s h4 h5 h6 hs0 hs2
      nlinarith [sq_nonneg (dy + (m:ℚ))]
  · -- k = 0: the three vertical candidates cover every integer shift m
    subst hk
    push_cast
    rcases (by omega : m ≤ -2 ∨ m = -1 ∨ m = 0 ∨ m = 1 ∨ 2 ≤ m) with hm | rfl | rfl | rfl | hm
    · have hmq : (m : ℚ) ≤ -2 := by exact_mod_cast hm
      have ha : dy ^ 2 ≤ 1 := by nlinarith
      have hb : 1 ≤ (dy + (m:ℚ)) ^ 2 := by nlinarith [sq_nonneg (dy + (m:ℚ) + 1)]
      linarith
    · push_cast
      linarith [h2]
    · push_cast
      linarith [h1]
    · push_cast
      linarith [h3]
    · have hmq : (2 : ℚ) ≤ (m : ℚ) := by exact_mod_cast hm
      have ha : dy ^ 2 ≤ 1 := by nlinarith
      have hb : 1 ≤ (dy + (m:ℚ)) ^ 2 := by nlinarith [sq_nonneg (dy + (m:ℚ) - 1)]
      linarith
  · -- k ≥ 1
    have hkq : (1 : ℚ) ≤ (k : ℚ) := by exact_mod_cast hk
    have hX : (dx + 2) ^ 2 ≤ (dx + 2 * (k:ℚ)) ^ 2 := by
      nlinarith [mul_nonneg (by linarith : (0:ℚ) ≤ 2*(k:ℚ) - 2)
        (by linarith : (0:ℚ) ≤ 2*dx + 2*(k:ℚ) + 2)]
    rcases le_or_lt 0 dx with hdx0 | hdx0
    · have hq := nine_quarter_left M dx s h7 h8 h9 hs0 hs2
      nlinarith [sq_nonneg (dy + (m:ℚ))]
    · have hq := nine_quarter_right M dx s h4 h5 h6 hs0 hs2
      nlinarith [sq_nonneg (dy + (m:ℚ))]

set_option maxHeartbeats 1600000 in
/-- If `M` is below the squared distances of all nine candidates, it is below
the squared distance of every member `(p2.x + 2k + 1, m - p2.y)` of the
mirrored family. -/
theorem nine_bound_odd (M dx dy s : ℚ) (k m : ℤ)
    (h1 : M ≤ dx ^ 2 + dy ^ 2)
    (h2 : M ≤ dx ^ 2 + (dy - 1) ^ 2)
    (h3 : M ≤ dx ^ 2 + (dy + 1) ^ 2)
    (h4 : M ≤ (dx + 1) ^ 2 + (1 - s) ^ 2)
    (h5 : M ≤ (dx + 1) ^ 2 + (2 - s) ^ 2)
    (h6 : M ≤ (dx + 1) ^ 2 + s ^ 2)
    (h7 : M ≤ (dx - 1) ^ 2 + (1 - s) ^ 2)
    (h8 : M ≤ (dx - 1) ^ 2 + (2 - s) ^ 2)
    (h9 : M ≤ (dx - 1) ^ 2 + s ^ 2)
    (hdx1 : -1 < dx) (hdx2 : dx < 1) (hdy1 : -1 < dy) (hdy2 : dy < 1)
    (hs0 : 0 ≤ s) (hs2 : s < 2) :
    M ≤ (dx + 2 * k + 1) ^ 2 + (m - s) ^ 2 := by
  rcases (by omega : k ≤ -2 ∨ k = -1 ∨ k = 0 ∨ 1 ≤ k) with hk | rfl | rfl | hk
  · -- k ≤ -2: far to the left
    have hkq : (k : ℚ) ≤ -2 := by exact_mod_cast hk
    have hX : (dx - 3) ^ 2 ≤ (dx + 2 * (k:ℚ) + 1) ^ 2 := by
      nlinarith [mul_nonneg (by linarith : (0:ℚ) ≤ -(2*(k:ℚ) + 4))
        (by linarith : (0:ℚ) ≤ -(2*dx + 2*(k:ℚ) - 2))]
    rcases le_or_lt 0 dx with hdx0 | hdx0
    · have hq := nine_quarter_left M dx s h7 h8 h9 hs0 hs2
      nlinarith [sq_nonneg ((m:ℚ) - s)]
    · have hq := nine_quarter_right M dx s h4 h5 h6 hs0 hs2
      nlinarith [sq_nonneg ((m:ℚ) - s)]
  · -- k = -1: the mirrored candidates one domain to the left
    push_cast
    rcases (by omega : m ≤ -1 ∨ m = 0 ∨ m = 1 ∨ m = 2 ∨ 3 ≤ m) with hm | rfl | rfl | rfl | hm
    · have hmq : (m : ℚ) ≤ -1 := by exact_mod_cast hm
      have key : s ^ 2 ≤ ((m:ℚ) - s) ^ 2 := by
        nlinarith [mul_nonneg (by linarith : (0:ℚ) ≤ -(m:ℚ))
          (by linarith : (0:ℚ) ≤ 2*s - (m:ℚ))]
      nlinarith [h9]
    · push_cast
      nlinarith [h9]
    · push_cast
      nlinarith [h7]
    · push_cast
      nlinarith [h8]
    · have hmq : (3 : ℚ) ≤ (m : ℚ) := by exact_mod_cast hm
      have key : (2 - s) ^ 2 ≤ ((m:ℚ) - s) ^ 2 := by
        nlinarith [mul_nonneg (by linarith : (0:ℚ) ≤ (m:ℚ) - 2)
          (by linarith : (0:ℚ) ≤ (m:ℚ) + 2 - 2*s)]
      nlinarith [h8]
  · -- k = 0: the mirrored candidates one domain to the right
    push_cast
    rcases (by omega : m ≤ -1 ∨ m = 0 ∨ m = 1 ∨ m = 2 ∨ 3 ≤ m) with hm | rfl | rfl | rfl | hm
    · have hmq : (m : ℚ) ≤ -1 := by exact_mod_cast hm
      have key : s ^ 2 ≤ ((m:ℚ) - s) ^ 2 := by
        nlinarith [mul_nonneg (by linarith : (0:ℚ) ≤ -(m:ℚ))
          (by linarith : (0:ℚ) ≤ 2*s - (m:ℚ))]
      nlinarith [h6]
    · push_cast
      nlinarith [h6]
    · push_cast
      nlinarith [h4]
    · push_cast
      nlinarith [h5]
    · have hmq : (3 : ℚ) ≤ (m : ℚ) := by exact_mod_cast hm
      have key : (2 - s) ^ 2 ≤ ((m:ℚ) - s) ^ 2 := by
        nlinarith [mul_nonneg (by linarith : (0:ℚ) ≤ (m:ℚ) - 2)
          (by linarith : (0:ℚ) ≤ (m:ℚ) + 2 - 2*s)]
      nlinarith [h5]
  · -- k ≥ 1: far to the right
    have hkq : (1 : ℚ) ≤ (k : ℚ) := by exact_mod_cast hk
    have hX : (dx + 3) ^ 2 ≤ (dx + 2 * (k:ℚ) + 1) ^ 2 := by
      nlinarith [mul_nonneg (by linarith : (0:ℚ) ≤ 2*(k:ℚ) - 2)
        (by linarith : (0:ℚ) ≤ 2*dx + 2*(k:ℚ) + 4)]
    rcases le_or_lt 0 dx with hdx0 | hdx0
    · have hq := nine_quarter_left M dx s h7 h8 h9 hs0 hs2
      nlinarith [sq_nonneg ((m:ℚ) - s)]
    · have hq := nine_quarter_right M dx s h4 h5 h6 hs0 hs2
      nlinarith [sq_nonneg ((m:ℚ) - s)]

set_option maxHeartbeats 1600000 in
/-- C2: Closest-representative optimality: the representative selected inside
`log` (the argmin over the nine candidates of `_closest_representative`) is at
squared distance from `regularize base_point` no larger than each of the other
candidates, and it attains the global minimum over the entire equivalence
class of `point`. -/
theorem klein_closest_representative_optimal (base_point point : Point) :
    (∀ c ∈ KleinBottleMetric.candidates (KleinBottle.regularize point),
      sqdist (KleinBottleMetric.closest_representative base_point point).2
          (KleinBottle.regularize base_point) ≤
        sqdist c (KleinBottle.regularize base_point)) ∧
    (∀ q : Point, KleinBottle.equivalent q point 0 = true →
      sqdist (KleinBottleMetric.closest_representative base_point point).2
          (KleinBottle.regularize base_point) ≤
        sqdist q (KleinBottle.regularize base_point)) := by
  have hsnd : (KleinBottleMetric.closest_representative base_point point).2 =
      KleinBottleMetric.selectMin (KleinBottle.regularize base_point)
        (KleinBottleMetric.candidates (KleinBottle.regularize point))
        (KleinBottle.regularize point) := rfl
  have hpart1 : ∀ c ∈ KleinBottleMetric.candidates (KleinBottle.regularize point),
      sqdist (KleinBottleMetric.closest_representative base_point point).2
          (KleinBottle.regularize base_point) ≤
        sqdist c (KleinBottle.regularize base_point) := by
    rw [hsnd]
    exact selectMin_le_mem _ _ _
  refine ⟨hpart1, ?_⟩
  intro q hq
  have hq2 : Requiv q (KleinBottle.regularize point) :=
    ((equivalent_iff_Requiv q point).mp hq).trans (regularize_equiv point).symm
  obtain ⟨hp1a, hp1b, hp1c, hp1d⟩ := regularize_mem base_point
  obtain ⟨hp2a, hp2b, hp2c, hp2d⟩ := regularize_mem point
  set p1 := KleinBottle.regularize base_point with hp1
  set p2 := KleinBottle.regularize point with hp2
  set M := sqdist (KleinBottleMetric.closest_representative base_point point).2 p1
    with hM
  have h1 : M ≤ (p2.1 - p1.1) ^ 2 + (p2.2 - p1.2) ^ 2 := by
    have h := hpart1 p2 (by simp [KleinBottleMetric.candidates])
    simp only [sqdist] at h
    linarith
  have h2 : M ≤ (p2.1 - p1.1) ^ 2 + ((p2.2 - p1.2) - 1) ^ 2 := by
    have h := hpart1 (p2.1, p2.2 - 1) (by simp [KleinBottleMetric.candidates])
    simp only [sqdist] at h
    nlinarith
  have h3 : M ≤ (p2.1 - p1.1) ^ 2 + ((p2.2 - p1.2) + 1) ^ 2 := by
    have h := hpart1 (p2.1, p2.2 + 1) (by simp [KleinBottleMetric.candidates])
    simp only [sqdist] at h
    nlinarith
  have h4 : M ≤ ((p2.1 - p1.1) + 1) ^ 2 + (1 - (p2.2 + p1.2)) ^ 2 := by
    have h := hpart1 (p2.1 + 1, 1 - p2.2) (by simp [KleinBottleMetric.candidates])
    simp only [sqdist] at h
    nlinarith
  have h5 : M ≤ ((p2.1 - p1.1) + 1) ^ 2 + (2 - (p2.2 + p1.2)) ^ 2 := by
    have h := hpart1 (p2.1 + 1, 2 - p2.2) (by simp [KleinBottleMetric.candidates])
    simp only [sqdist] at h
    nlinarith
  have h6 : M ≤ ((p2.1 - p1.1) + 1) ^ 2 + (p2.2 + p1.2) ^ 2 := by
    have h := hpart1 (p2.1 + 1, 0 - p2.2) (by simp [KleinBottleMetric.candidates])
    simp only [sqdist] at h
    nlinarith
  have h7 : M ≤ ((p2.1 - p1.1) - 1) ^ 2 + (1 - (p2.2 + p1.2)) ^ 2 := by
    have h := hpart1 (p2.1 - 1, 1 - p2.2) (by simp [KleinBottleMetric.candidates])
    simp only [sqdist] at h
    nlinarith
  have h8 : M ≤ ((p2.1 - p1.1) - 1) ^ 2 + (2 - (p2.2 + p1.2)) ^ 2 := by
    have h := hpart1 (p2.1 - 1, 2 - p2.2) (by simp [KleinBottleMetric.candidates])
    simp only [sqdist] at h
    nlinarith
  have h9 : M ≤ ((p2.1 - p1.1) - 1) ^ 2 + (p2.2 + p1.2) ^ 2 := by
    have h := hpart1 (p2.1 - 1, 0 - p2.2) (by simp [KleinBottleMetric.candidates])
    simp only [sqdist] at h
    nlinarith
  have hdx1 : -1 < p2.1 - p1.1 := by linarith
  have hdx2 : p2.1 - p1.1 < 1 := by linarith
  have hdy1 : -1 < p2.2 - p1.2 := by linarith
  have hdy2 : p2.2 - p1.2 < 1 := by linarith
  have hs0 : 0 ≤ p2.2 + p1.2 := by linarith
  have hs2 : p2.2 + p1.2 < 2 := by linarith
  rcases hq2 with ⟨k, m, hk, hm⟩ | ⟨k, m, hk, hm⟩
  · have e1 : q.1 - p1.1 = p2.1 - p1.1 + 2 * (k:ℚ) := by linarith
    have e2 : q.2 - p1.2 = p2.2 - p1.2 + (m:ℚ) := by linarith
    simp only [sqdist]
    rw [e1, e2]
    exact nine_bound_even M (p2.1 - p1.1) (p2.2 - p1.2) (p2.2 + p1.2) k m
      h1 h2 h3 h4 h5 h6 h7 h8 h9 hdx1 hdx2 hdy1 hdy2 hs0 hs2
  · have e1 : q.1 - p1.1 = p2.1 - p1.1 + 2 * (k:ℚ) + 1 := by linarith
    have e2 : q.2 - p1.2 = (m:ℚ) - (p2.2 + p1.2) := by linarith
    simp only [sqdist]
    rw [e1, e2]
    exact nine_bound_odd M (p2.1 - p1.1) (p2.2 - p1.2) (p2.2 + p1.2) k m
      h1 h2 h3 h4 h5 h6 h7 h8 h9 hdx1 hdx2 hdy1 hdy2 hs0 hs2

/-!
### Cholesky metric on positive lower triangular matrices

Embedding of `CholeskyMetric` from positive_lower_triangular_matrices.py.
Matrices are `Matrix (Fin n) (Fin n) ℝ`; `gs.exp`/`gs.log` are the real
exponential and logarithm (elementwise on diagonals), so these definitions
are noncomputable in Lean but exact.
-/

namespace Matrices

/-- `Matrices.diagonal`: the diagonal of a matrix as a vector. -/
def diagonal {n : ℕ} (A : Matrix (Fin n) (Fin n) ℝ) : Fin n → ℝ :=
  fun i => A i i

/-- `Matrices.to_strictly_lower_triangular` (`gs.tril(mat, k=-1)`): keep the
entries strictly below the diagonal. -/
def to_strictly_lower_triangular {n : ℕ} (A : Matrix (Fin n) (Fin n) ℝ) :
    Matrix (Fin n) (Fin n) ℝ :=
  fun i j => if (j : ℕ) < (i : ℕ) then A i j else 0

/-- `Matrices.frobenius_product`: sum of entrywise products. -/
def frobenius_product {n : ℕ} (A B : Matrix (Fin n) (Fin n) ℝ) : ℝ :=
  ∑ i, ∑ j, A i j * B i j

end Matrices

/-- Lower-triangular predicate: all entries strictly above the diagonal are
zero (`LowerTriangularMatrices.belongs`). -/
def IsLowerTriangular {n : ℕ} (A : Matrix (Fin n) (Fin n) ℝ) : Prop :=
  ∀ i j : Fin n, (i : ℕ) < (j : ℕ) → A i j = 0

/-- Strictly positive diagonal (the second conjunct of
`PositiveLowerTriangularMatrices.belongs`). -/
def HasPosDiag {n : ℕ} (A : Matrix (Fin n) (Fin n) ℝ) : Prop :=
  ∀ i : Fin n, 0 < A i i

namespace CholeskyMetric

/-- `CholeskyMetric.exp`: strictly lower parts add; the diagonal follows
`diag_base * exp (diag_tangent / diag_base)`. -/
noncomputable def exp {n : ℕ} (tangent_vec base_point : Matrix (Fin n) (Fin n) ℝ) :
    Matrix (Fin n) (Fin n) ℝ :=
  Matrices.to_strictly_lower_triangular base_point +
    Matrices.to_strictly_lower_triangular tangent_vec +
    Matrix.diagonal (fun i =>
      Matrices.diagonal base_point i *
        Real.exp (Matrices.diagonal tangent_vec i / Matrices.diagonal base_point i))

/-- `CholeskyMetric.log`: strictly lower parts subtract; the diagonal follows
`diag_base * log (diag_point / diag_base)`. -/
noncomputable def log {n : ℕ} (point base_point : Matrix (Fin n) (Fin n) ℝ) :
    Matrix (Fin n) (Fin n) ℝ :=
  (Matrices.to_strictly_lower_triangular point -
      Matrices.to_strictly_lower_triangular base_point) +
    Matrix.diagonal (fun i =>
      Matrices.diagonal base_point i *
        Real.log (Matrices.diagonal point i / Matrices.diagonal base_point i))

/-- `CholeskyMetric.squared_dist`: squared Frobenius distance of the strictly
lower parts plus squared Euclidean distance of the log-diagonals. -/
noncomputable def squared_dist {n : ℕ} (point_a point_b : Matrix (Fin n) (Fin n) ℝ) :
    ℝ :=
  Matrices.frobenius_product
      (Matrices.to_strictly_lower_triangular point_a -
        Matrices.to_strictly_lower_triangular point_b)
      (Matrices.to_strictly_lower_triangular point_a -
        Matrices.to_strictly_lower_triangular point_b) +
    ∑ i, (Real.log (Matrices.diagonal point_a i) -
      Real.log (Matrices.diagonal point_b i)) ^ 2

end CholeskyMetric

/-- C3: Cholesky exp/log mutual inversion: at any lower-triangular base point
with strictly positive diagonal, `log (exp v b) b = v` for every
lower-triangular tangent vector `v`, and `exp (log p b) b = p` for every
lower-triangular `p` with strictly positive diagonal (exact real
arithmetic). -/
theorem cholesky_exp_log_inverse {n : ℕ} (base_point : Matrix (Fin n) (Fin n) ℝ)
    (hb : IsLowerTriangular base_point) (hbd : HasPosDiag base_point) :
    (∀ tangent_vec : Matrix (Fin n) (Fin n) ℝ, IsLowerTriangular tangent_vec →
      CholeskyMetric.log (CholeskyMetric.exp tangent_vec base_point) base_point =
        tangent_vec) ∧
    (∀ point : Matrix (Fin n) (Fin n) ℝ, IsLowerTriangular point →
      HasPosDiag point →
      CholeskyMetric.exp (CholeskyMetric.log point base_point) base_point = point) := by
  constructor
  · intro t ht
    ext i j
    rcases lt_trichotomy (i : ℕ) (j : ℕ) with hij | hij | hij
    · have h1 : ¬ (j : ℕ) < (i : ℕ) := by omega
      have h2 : i ≠ j := Fin.ne_of_val_ne (by omega)
      simp only [CholeskyMetric.log, CholeskyMetric.exp, Matrices.diagonal,
        Matrices.to_strictly_lower_triangular, Matrix.add_apply, Matrix.sub_apply,
        Matrix.diagonal_apply, Matrix.of_apply, if_neg h1, if_neg h2]
      rw [ht i j hij]
      ring
    · have heq : i = j := Fin.ext hij
      subst heq
      have h1 : ¬ (i : ℕ) < (i : ℕ) := lt_irrefl _
      have hbne : base_point i i ≠ 0 := ne_of_gt (hbd i)
      simp only [CholeskyMetric.log, CholeskyMetric.exp, Matrices.diagonal,
        Matrices.to_strictly_lower_triangular, Matrix.add_apply, Matrix.sub_apply,
        Matrix.diagonal_apply, Matrix.of_apply, if_neg h1, if_pos rfl]
      simp only [if_true, sub_zero, zero_add]
      rw [mul_div_cancel_left₀ _ hbne, Real.log_exp]
      field_simp
    · have h1 : (j : ℕ) < (i : ℕ) := hij
      have h2 : i ≠ j := Fin.ne_of_val_ne (by omega)
      simp only [CholeskyMetric.log, CholeskyMetric.exp, Matrices.diagonal,
        Matrices.to_strictly_lower_triangular, Matrix.add_apply, Matrix.sub_apply,
        Matrix.diagonal_apply, Matrix.of_apply, if_pos h1, if_neg h2]
      ring
  · intro p hp hpd
    ext i j
    rcases lt_trichotomy (i : ℕ) (j : ℕ) with hij | hij | hij
    · have h1 : ¬ (j : ℕ) < (i : ℕ) := by omega
      have h2 : i ≠ j := Fin.ne_of_val_ne (by omega)
      simp only [CholeskyMetric.exp, CholeskyMetric.log, Matrices.diagonal,
        Matrices.to_strictly_lower_triangular, Matrix.add_apply, Matrix.sub_apply,
        Matrix.diagonal_apply, Matrix.of_apply, if_neg h1, if_neg h2]
      rw [hp i j hij]
      ring
    · have heq : i = j := Fin.ext hij
      subst heq
      have h1 : ¬ (i : ℕ) < (i : ℕ) := lt_irrefl _
      have hbne : base_point i i ≠ 0 := ne_of_gt (hbd i)
      have hquot : 0 < p i i / base_point i i := div_pos (hpd i) (hbd i)
      simp only [CholeskyMetric.exp, CholeskyMetric.log, Matrices.diagonal,
        Matrices.to_strictly_lower_triangular, Matrix.add_apply, Matrix.sub_apply,
        Matrix.diagonal_apply, Matrix.of_apply, if_neg h1, if_pos rfl]
      simp only [if_true, sub_zero, zero_add]
      rw [mul_div_cancel_left₀ _ hbne, Real.exp_log hquot]
      field_simp
    · have h1 : (j : ℕ) < (i : ℕ) := hij
      have h2 : i ≠ j := Fin.ne_of_val_ne (by omega)
      simp only [CholeskyMetric.exp, CholeskyMetric.log, Matrices.diagonal,
        Matrices.to_strictly_lower_triangular, Matrix.add_apply, Matrix.sub_apply,
        Matrix.diagonal_apply, Matrix.of_apply, if_pos h1, if_neg h2]
      ring

/-- C3 witness: the two inversion equations instantiated with concrete `1×1`
matrices (base `[[2]]`, tangent `[[3]]`, point `[[5]]`). -/
theorem cholesky_exp_log_inverse_witness :
    CholeskyMetric.log
        (CholeskyMetric.exp (fun _ _ => (3:ℝ)) (fun _ _ => (2:ℝ)))
        (fun _ _ => (2:ℝ)) = (fun _ _ => (3:ℝ) : Matrix (Fin 1) (Fin 1) ℝ) ∧
      CholeskyMetric.exp
        (CholeskyMetric.log (fun _ _ => (5:ℝ)) (fun _ _ => (2:ℝ)))
        (fun _ _ => (2:ℝ)) = (fun _ _ => (5:ℝ) : Matrix (Fin 1) (Fin 1) ℝ) := by
  have hlt2 : IsLowerTriangular (fun _ _ => (2:ℝ) : Matrix (Fin 1) (Fin 1) ℝ) := by
    intro i j h
    have hi := i.isLt
    have hj := j.isLt
    omega
  have hlt3 : IsLowerTriangular (fun _ _ => (3:ℝ) : Matrix (Fin 1) (Fin 1) ℝ) := by
    intro i j h
    have hi := i.isLt
    have hj := j.isLt
    omega
  have hlt5 : IsLowerTriangular (fun _ _ => (5:ℝ) : Matrix (Fin 1) (Fin 1) ℝ) := by
    intro i j h
    have hi := i.isLt
    have hj := j.isLt
    omega
  have hpd2 : HasPosDiag (fun _ _ => (2:ℝ) : Matrix (Fin 1) (Fin 1) ℝ) :=
    fun _ => by norm_num
  have hpd5 : HasPosDiag (fun _ _ => (5:ℝ) : Matrix (Fin 1) (Fin 1) ℝ) :=
    fun _ => by norm_num
  exact ⟨(cholesky_exp_log_inverse _ hlt2 hpd2).1 _ hlt3,
    (cholesky_exp_log_inverse _ hlt2 hpd2).2 _ hlt5 hpd5⟩

/-- Written from the spec's words for C9: the sum of the squared entrywise
differences of the logarithms of the diagonals, plus the squared Frobenius
norm of the difference of the strictly-lower-triangular parts. -/
noncomputable def specSquaredDist {n : ℕ} (a b : Matrix (Fin n) (Fin n) ℝ) : ℝ :=
  (∑ i, (Real.log (a i i) - Real.log (b i i)) ^ 2) +
    ∑ i, ∑ j, (Matrices.to_strictly_lower_triangular a i j -
      Matrices.to_strictly_lower_triangular b i j) ^ 2

/-- C9: Cholesky squared distance closed form: `squared_dist` equals the
log-Euclidean term on the diagonal plus the Frobenius term on the strictly
lower part, and `squared_dist ([[1,0],[0,1]], [[e,0],[0,1]]) = 1`. -/
theorem cholesky_squared_dist_closed_form :
    (∀ (n : ℕ) (a b : Matrix (Fin n) (Fin n) ℝ),
      CholeskyMetric.squared_dist a b = specSquaredDist a b) ∧
    CholeskyMetric.squared_dist (1 : Matrix (Fin 2) (Fin 2) ℝ)
      (Matrix.of ![![Real.exp 1, 0], ![0, 1]]) = 1 := by
  constructor
  · intro n a b
    simp only [CholeskyMetric.squared_dist, specSquaredDist,
      Matrices.frobenius_product, Matrices.diagonal, Matrix.sub_apply]
    rw [add_comm]
    congr 1
    exact Finset.sum_congr rfl fun i _ => Finset.sum_congr rfl fun j _ => by ring
  · simp only [CholeskyMetric.squared_dist, Matrices.frobenius_product,
      Matrices.diagonal, Matrices.to_strictly_lower_triangular,
      Fin.sum_univ_two, Matrix.sub_apply, Matrix.of_apply, Matrix.cons_val',
      Matrix.cons_val_zero, Matrix.cons_val_one, Matrix.head_cons,
      Matrix.empty_val', Matrix.cons_val_fin_one, Matrix.head_fin_const,
      Matrix.one_apply]
    norm_num [Real.log_exp, Real.log_one]

/-!
### Sparse scatter (`gs.array_from_sparse`) over `ℕ`-indexed matrices

Matrices whose size is a runtime parameter (`UnitNormedRowsPLTDiffeo` with
size `n`, `SymmetricMatrices` reconstruction) are embedded as functions
`ℕ → ℕ → ℝ` that are consulted only at indices below the size, together
with index lists mirroring `gs.tril_indices` / `gs.triu_indices`.
-/

/-- `gs.array_from_sparse(indices, values, shape)`: the dense array holding
`value` at each listed index and `0` elsewhere. -/
def array_from_sparse (entries : List ((ℕ × ℕ) × ℝ)) : ℕ → ℕ → ℝ :=
  fun i j => (((entries.find? (fun e => decide (e.1 = (i, j)))).map Prod.snd).getD 0)

theorem find?_map_pair (l : List (ℕ × ℕ)) (f : (ℕ × ℕ) → ℝ) (q : ℕ × ℕ) :
    (l.map (fun p => (p, f p))).find? (fun e => decide (e.1 = q)) =
      if q ∈ l then some (q, f q) else none := by
  induction l with
  | nil => simp
  | cons a l ih =>
    by_cases ha : a = q
    · subst ha
      simp [List.find?]
    · rw [List.map_cons, List.find?_cons_of_neg _ (by simp [ha]), ih]
      simp [List.mem_cons, ha, Ne.symm ha]

theorem array_from_sparse_map (l : List (ℕ × ℕ)) (f : (ℕ × ℕ) → ℝ) (i j : ℕ) :
    array_from_sparse (l.map (fun p => (p, f p))) i j =
      if (i, j) ∈ l then f (i, j) else 0 := by
  rw [array_from_sparse, find?_map_pair]
  split <;> simp

theorem zip_map_self (l : List (ℕ × ℕ)) (f : (ℕ × ℕ) → ℝ) :
    l.zip (l.map f) = l.map (fun p => (p, f p)) := by
  induction l with
  | nil => rfl
  | cons a l ih => simp [List.zip_cons_cons, ih]

namespace UnitNormedRowsPLTDiffeo

/-- `UnitNormedRowsPLTDiffeo.diffeomorphism`: concatenate, for each row
`i = 1, ..., n-1`, the reversed row prefix `A[i, 0..i]`. -/
def diffeomorphism (n : ℕ) (A : ℕ → ℕ → ℝ) : List ℝ :=
  (List.range' 1 (n - 1)).flatMap
    (fun i => ((List.range (i + 1)).map (fun j => A i j)).reverse)

/-- `gs.tril_indices(n)` sorted by row index descending (Python's stable sort
keeps columns ascending inside each row). -/
def trilIndicesDesc (n : ℕ) : List (ℕ × ℕ) :=
  (List.range n).reverse.flatMap
    (fun i => (List.range (i + 1)).map (fun j => (i, j)))

/-- `UnitNormedRowsPLTDiffeo._from_product_to_mat`: reverse the vector, append
`1` (point inverse) or `0` (tangent inverse), and scatter the values into the
lower-triangular index pattern sorted by row descending. -/
def from_product_to_mat (n : ℕ) (vec : List ℝ) (ones : Bool) : ℕ → ℕ → ℝ :=
  array_from_sparse
    ((trilIndicesDesc n).zip (vec.reverse ++ [if ones then (1 : ℝ) else 0]))

/-- `UnitNormedRowsPLTDiffeo.inverse_diffeomorphism`. -/
def inverse_diffeomorphism (n : ℕ) (image_point : List ℝ) : ℕ → ℕ → ℝ :=
  from_product_to_mat n image_point true

/-- `UnitNormedRowsPLTDiffeo.tangent_diffeomorphism`: the map is linear, so
its pushforward is itself. -/
def tangent_diffeomorphism (n : ℕ) (tangent_vec : ℕ → ℕ → ℝ) : List ℝ :=
  diffeomorphism n tangent_vec

/-- `UnitNormedRowsPLTDiffeo.inverse_tangent_diffeomorphism`. -/
def inverse_tangent_diffeomorphism (n : ℕ) (image_tangent_vec : List ℝ) :
    ℕ → ℕ → ℝ :=
  from_product_to_mat n image_tangent_vec false

theorem mem_trilIndicesDesc (n i j : ℕ) :
    (i, j) ∈ trilIndicesDesc n ↔ j ≤ i ∧ i < n := by
  simp only [trilIndicesDesc, List.mem_flatMap, List.mem_reverse, List.mem_range,
    List.mem_map, Prod.mk.injEq]
  constructor
  · rintro ⟨a, ha, b, hb, rfl, rfl⟩
    omega
  · rintro ⟨hji, hin⟩
    exact ⟨i, hin, j, by omega, rfl, rfl⟩

/-- The reversed image vector with the fixed value appended lines up with the
descending lower-triangular index list: it is exactly the matrix entry at each
index, with the fixed value `c` at `(0, 0)`. -/
theorem reverse_diffeo_append (n : ℕ) (hn : 0 < n) (A : ℕ → ℕ → ℝ) (c : ℝ) :
    (diffeomorphism n A).reverse ++ [c] =
      (trilIndicesDesc n).map
        (fun p => if p = (0, 0) then c else A p.1 p.2) := by
  have hrange : List.range n = 0 :: List.range' 1 (n - 1) := by
    rw [List.range_eq_range']
    cases n with
    | zero => omega
    | succ m => rfl
  have h1 : (diffeomorphism n A).reverse =
      (List.range' 1 (n - 1)).reverse.flatMap
        (fun i => (List.range (i + 1)).map (fun j => A i j)) := by
    rw [diffeomorphism, List.reverse_flatMap]
    simp only [Function.comp_def, List.reverse_reverse]
  have h2 : trilIndicesDesc n =
      (List.range' 1 (n - 1)).reverse.flatMap
          (fun i => (List.range (i + 1)).map (fun j => (i, j))) ++ [(0, 0)] := by
    rw [trilIndicesDesc, hrange, List.reverse_cons, List.flatMap_append]
    congr 1
  rw [h1, h2, List.map_append]
  congr 1
  · rw [List.map_flatMap]
    refine List.flatMap_congr ?_
    intro i hi
    have hi1 : 1 ≤ i := by
      rw [List.mem_reverse, List.mem_range'_1] at hi
      omega
    rw [List.map_map]
    refine List.map_eq_map_iff.mpr ?_
    intro j hj
    simp only [Function.comp_apply]
    rw [if_neg (by simp ; omega)]

end UnitNormedRowsPLTDiffeo

theorem from_product_diffeo_roundtrip (n : ℕ) (hn : 0 < n) (A : ℕ → ℕ → ℝ)
    (ones : Bool) (hA00 : A 0 0 = if ones then (1:ℝ) else 0)
    (hup : ∀ i j : ℕ, i < j → j < n → A i j = 0) :
    ∀ i j : ℕ, i < n → j < n →
      UnitNormedRowsPLTDiffeo.from_product_to_mat n
        (UnitNormedRowsPLTDiffeo.diffeomorphism n A) ones i j = A i j := by
  intro i j hi hj
  rw [UnitNormedRowsPLTDiffeo.from_product_to_mat,
    UnitNormedRowsPLTDiffeo.reverse_diffeo_append n hn A (if ones then (1:ℝ) else 0),
    zip_map_self, array_from_sparse_map]
  by_cases hle : j ≤ i
  · rw [if_pos ((UnitNormedRowsPLTDiffeo.mem_trilIndicesDesc n i j).mpr ⟨hle, hi⟩)]
    by_cases h00 : ((i : ℕ), (j : ℕ)) = ((0 : ℕ), (0 : ℕ))
    · obtain ⟨hi0, hj0⟩ := Prod.ext_iff.mp h00
      subst hi0
      subst hj0
      rw [if_pos rfl]
      exact hA00.symm
    · rw [if_neg h00]
  · have hij : i < j := by omega
    rw [if_neg (fun hmem =>
      hle ((UnitNormedRowsPLTDiffeo.mem_trilIndicesDesc n i j).mp hmem).1)]
    exact (hup i j hij hj).symm

/-- C4: Diffeo round trip: for every `n x n` lower-triangular matrix `p` with
`p 0 0 = 1`, `inverse_diffeomorphism (diffeomorphism p) = p` on all entries,
and for every lower-triangular tangent vector `v` with `v 0 0 = 0`,
`inverse_tangent_diffeomorphism (tangent_diffeomorphism v) = v`. -/
theorem unitnormed_diffeo_roundtrip (n : ℕ) (hn : 0 < n) (A : ℕ → ℕ → ℝ)
    (hup : ∀ i j : ℕ, i < j → j < n → A i j = 0) :
    (A 0 0 = 1 → ∀ i j : ℕ, i < n → j < n →
      UnitNormedRowsPLTDiffeo.inverse_diffeomorphism n
        (UnitNormedRowsPLTDiffeo.diffeomorphism n A) i j = A i j) ∧
    (A 0 0 = 0 → ∀ i j : ℕ, i < n → j < n →
      UnitNormedRowsPLTDiffeo.inverse_tangent_diffeomorphism n
        (UnitNormedRowsPLTDiffeo.tangent_diffeomorphism n A) i j = A i j) := by
  constructor
  · intro h00
    exact from_product_diffeo_roundtrip n hn A true (by simpa using h00) hup
  · intro h00
    exact from_product_diffeo_roundtrip n hn A false (by simpa using h00) hup

/-- C4 witness: the round trips evaluated for concrete `2×2` matrices (the
all-ones lower triangle for the point, a tangent with zero top-left entry). -/
theorem unitnormed_diffeo_roundtrip_witness :
    UnitNormedRowsPLTDiffeo.inverse_diffeomorphism 2
        (UnitNormedRowsPLTDiffeo.diffeomorphism 2
          (fun i j => if j ≤ i then (1:ℝ) else 0)) 1 0 =
      (fun i j => if j ≤ i then (1:ℝ) else 0) 1 0 ∧
    UnitNormedRowsPLTDiffeo.inverse_tangent_diffeomorphism 2
        (UnitNormedRowsPLTDiffeo.tangent_diffeomorphism 2
          (fun i j => if i = 1 ∧ j ≤ 1 then (3:ℝ) else 0)) 1 1 =
      (fun i j => if i = 1 ∧ j ≤ 1 then (3:ℝ) else 0) 1 1 := by
  constructor
  · exact (unitnormed_diffeo_roundtrip 2 (by norm_num) _
      (by intro i j h1 h2; rw [if_neg (by omega)])).1
      (by norm_num) 1 0 (by norm_num) (by norm_num)
  · exact (unitnormed_diffeo_roundtrip 2 (by norm_num) _
      (by intro i j h1 h2; rw [if_neg (by omega)])).2
      (by norm_num) 1 1 (by norm_num) (by norm_num)

namespace SymmetricMatrices

/-- `gs.triu_indices(n)`: row-major upper-triangular indices `(i, j)` with
`j ≥ i`, diagonal included. -/
def triuIndices (n : ℕ) : List (ℕ × ℕ) :=
  (List.range n).flatMap (fun i => (List.range' i (n - i)).map (fun j => (i, j)))

/-- `SymmetricMatrices.basis_representation` (`gs.triu_to_vec`): the upper
triangular entries flattened row-major. -/
def basis_representation (n : ℕ) (M : ℕ → ℕ → ℝ) : List ℝ :=
  (triuIndices n).map (fun p => M p.1 p.2)

/-- `mat_dim = (sqrt(8 * vec_dim + 1) - 1) / 2`, the matrix size recovered
from the vector length. -/
def mat_dim_of (vec_dim : ℕ) : ℕ := (Nat.sqrt (8 * vec_dim + 1) - 1) / 2

/-- `SymmetricMatrices.matrix_representation`: check that the vector length
is a triangular number (`ValueError`, modelled as `none`, otherwise), scatter
the vector into the upper-triangular index pattern, symmetrize by
transpose-averaging (`Matrices.to_symmetric`), and multiply elementwise by
the mask `2 * ones - eye` which doubles the off-diagonal entries. -/
noncomputable def matrix_representation (vec : List ℝ) : Option (ℕ → ℕ → ℝ) :=
  if mat_dim_of vec.length * (mat_dim_of vec.length + 1) / 2 = vec.length then
    some (fun i j =>
      (array_from_sparse ((triuIndices (mat_dim_of vec.length)).zip vec) i j +
          array_from_sparse ((triuIndices (mat_dim_of vec.length)).zip vec) j i) / 2 *
        (2 - if i = j then 1 else 0))
  else none

theorem mem_triuIndices (n i j : ℕ) :
    (i, j) ∈ triuIndices n ↔ i ≤ j ∧ j < n := by
  simp only [triuIndices, List.mem_flatMap, List.mem_range, List.mem_map,
    List.mem_range'_1, Prod.mk.injEq]
  constructor
  · rintro ⟨a, ha, b, hb, h1, h2⟩
    subst h1
    subst h2
    omega
  · rintro ⟨hij, hjn⟩
    exact ⟨i, by omega, j, ⟨hij, by omega⟩, rfl, rfl⟩

theorem sum_range_sub (n : ℕ) :
    (∑ i in Finset.range n, (n - i)) = n * (n + 1) / 2 := by
  induction n with
  | zero => simp
  | succ m ih =>
    rw [Finset.sum_range_succ]
    have hcong : ∑ i in Finset.range m, (m + 1 - i) =
        ∑ i in Finset.range m, ((m - i) + 1) :=
      Finset.sum_congr rfl (fun i hi => by
        have := Finset.mem_range.mp hi
        omega)
    rw [hcong, Finset.sum_add_distrib, ih]
    simp only [Finset.sum_const, Finset.card_range, smul_eq_mul, mul_one,
      Nat.add_sub_cancel_left, Nat.add_sub_cancel]
    have ht : (m + 2) * (m + 1) / 2 = (m + 1) * m / 2 + (m + 1) := by
      simpa using Nat.triangle_succ (m + 1)
    rw [show (m + 1) * (m + 1 + 1) = (m + 2) * (m + 1) from by ring, ht,
      show (m + 1) * m = m * (m + 1) from mul_comm _ _, Nat.add_assoc]

theorem length_triuIndices (n : ℕ) : (triuIndices n).length = n * (n + 1) / 2 := by
  rw [triuIndices, List.length_flatMap]
  have h1 : List.map (List.length ∘ fun i => (List.range' i (n - i)).map
      (fun j => (i, j))) (List.range n) = (List.range n).map (fun i => n - i) := by
    refine List.map_eq_map_iff.mpr ?_
    intro i hi
    simp
  rw [h1]
  exact sum_range_sub n

theorem matDim_of_triangle (n : ℕ) : mat_dim_of (n * (n + 1) / 2) = n := by
  have hdvd : 2 ∣ n * (n + 1) := (Nat.even_mul_succ_self n).two_dvd
  have h2 : n * (n + 1) / 2 * 2 = n * (n + 1) := Nat.div_mul_cancel hdvd
  have h8 : 8 * (n * (n + 1) / 2) + 1 = (2 * n + 1) * (2 * n + 1) := by
    have h4 : 8 * (n * (n + 1) / 2) = 4 * (n * (n + 1) / 2 * 2) := by ring
    rw [h4, h2]
    ring
  rw [mat_dim_of, h8, Nat.sqrt_eq]
  omega

end SymmetricMatrices

/-- C10: symmetric-matrix vectorization round trip: for every symmetric
`n x n` matrix `M`, `matrix_representation (basis_representation M)` succeeds
(the length check passes) and reproduces `M` on every entry. -/
theorem symmetric_matrix_vectorization_roundtrip (n : ℕ) (M : ℕ → ℕ → ℝ)
    (hsym : ∀ i j : ℕ, i < n → j < n → M i j = M j i) :
    (SymmetricMatrices.matrix_representation
        (SymmetricMatrices.basis_representation n M)).isSome = true ∧
    ∀ i j : ℕ, i < n → j < n →
      ((SymmetricMatrices.matrix_representation
          (SymmetricMatrices.basis_representation n M)).getD
        (fun _ _ => 0)) i j = M i j := by
  have hlen : (SymmetricMatrices.basis_representation n M).length = n * (n + 1) / 2 := by
    rw [SymmetricMatrices.basis_representation, List.length_map,
      SymmetricMatrices.length_triuIndices]
  have hmd : SymmetricMatrices.mat_dim_of
      (SymmetricMatrices.basis_representation n M).length = n := by
    rw [hlen]
    exact SymmetricMatrices.matDim_of_triangle n
  have hcond : SymmetricMatrices.mat_dim_of
        (SymmetricMatrices.basis_representation n M).length *
        (SymmetricMatrices.mat_dim_of
          (SymmetricMatrices.basis_representation n M).length + 1) / 2 =
      (SymmetricMatrices.basis_representation n M).length := by
    rw [hmd, hlen]
  have hform : SymmetricMatrices.matrix_representation
      (SymmetricMatrices.basis_representation n M) =
      some (fun i j =>
        (array_from_sparse ((SymmetricMatrices.triuIndices n).zip
              (SymmetricMatrices.basis_representation n M)) i j +
            array_from_sparse ((SymmetricMatrices.triuIndices n).zip
              (SymmetricMatrices.basis_representation n M)) j i) / 2 *
          (2 - if i = j then 1 else 0)) := by
    rw [SymmetricMatrices.matrix_representation, if_pos hcond, hmd]
  rw [hform]
  refine ⟨rfl, ?_⟩
  intro i j hi hj
  have hU : ∀ a b : ℕ, array_from_sparse ((SymmetricMatrices.triuIndices n).zip
      (SymmetricMatrices.basis_representation n M)) a b =
      if (a, b) ∈ SymmetricMatrices.triuIndices n then M a b else 0 := by
    intro a b
    rw [SymmetricMatrices.basis_representation, zip_map_self, array_from_sparse_map]
  simp only [Option.getD_some]
  rw [hU, hU]
  rcases lt_trichotomy i j with hij | rfl | hij
  · rw [if_pos ((SymmetricMatrices.mem_triuIndices n i j).mpr ⟨by omega, hj⟩),
      if_neg (fun hmem =>
        absurd ((SymmetricMatrices.mem_triuIndices n j i).mp hmem).1 (by omega)),
      if_neg (by omega : ¬ i = j)]
    ring
  · rw [if_pos ((SymmetricMatrices.mem_triuIndices n i i).mpr ⟨le_refl i, hi⟩),
      if_pos rfl]
    ring
  · rw [if_neg (fun hmem =>
        absurd ((SymmetricMatrices.mem_triuIndices n i j).mp hmem).1 (by omega)),
      if_pos ((SymmetricMatrices.mem_triuIndices n j i).mpr ⟨by omega, hi⟩),
      if_neg (by omega : ¬ i = j), hsym j i hj hi]
    ring

/-- C10 witness: the round trip evaluated for the concrete symmetric `2×2`
matrix `M i j = i + j`: the reconstruction succeeds and returns `M 0 1`. -/
theorem symmetric_matrix_vectorization_roundtrip_witness :
    (SymmetricMatrices.matrix_representation
        (SymmetricMatrices.basis_representation 2
          (fun i j => ((i + j : ℕ) : ℝ)))).isSome = true ∧
    ((SymmetricMatrices.matrix_representation
        (SymmetricMatrices.basis_representation 2
          (fun i j => ((i + j : ℕ) : ℝ)))).getD (fun _ _ => 0)) 0 1 =
      (fun i j => ((i + j : ℕ) : ℝ)) 0 1 := by
  have h := symmetric_matrix_vectorization_roundtrip 2
    (fun i j => ((i + j : ℕ) : ℝ))
    (by intro i j _ _; simp [Nat.add_comm])
  exact ⟨h.1, h.2 0 1 (by norm_num) (by norm_num)⟩

/-- C2 witness: both optimality statements instantiated at concrete points,
with the candidate `regularize point` itself and the member `q = point` of
the equivalence class. -/
theorem klein_closest_representative_optimal_witness :
    sqdist ((KleinBottleMetric.closest_representative (1/4, 1/3) (3/4, 2/3)).2)
        (KleinBottle.regularize (1/4, 1/3)) ≤
      sqdist (KleinBottle.regularize (3/4, 2/3))
        (KleinBottle.regularize (1/4, 1/3)) ∧
    sqdist ((KleinBottleMetric.closest_representative (1/4, 1/3) (3/4, 2/3)).2)
        (KleinBottle.regularize (1/4, 1/3)) ≤
      sqdist (3/4, 2/3) (KleinBottle.regularize (1/4, 1/3)) :=
  ⟨(klein_closest_representative_optimal (1/4, 1/3) (3/4, 2/3)).1
      (KleinBottle.regularize (3/4, 2/3))
      (by simp [KleinBottleMetric.candidates]),
   (klein_closest_representative_optimal (1/4, 1/3) (3/4, 2/3)).2 (3/4, 2/3)
      ((equivalent_iff_Requiv (3/4, 2/3) (3/4, 2/3)).mpr (Requiv.refl (3/4, 2/3)))⟩
